import Mathlib

/-!
Verification of the ken-web-scrapper crawl/extract/retry/merge pipeline and its
vector-similarity retrieval subsystem.  Each definition is a shallow embedding of
a function from `src/src/scraper/utils.ts` or `src/src/scraper/scraper.service.ts`;
JavaScript `Map`s and plain objects used as dictionaries are modelled as
insertion-ordered association lists, and JavaScript number semantics (including
`NaN`) is modelled where a claim depends on it.
-/

namespace Scraper

/-! ## Insertion-ordered string-keyed maps

Model of a JavaScript `Map` (and of a plain object used as a dictionary with
non-index string keys): a list of key/value pairs in insertion order.
`jsSet` replaces the value of an existing key in place and appends a fresh key
at the end, exactly as `Map.prototype.set` does. -/

/-- Entry list of a JavaScript `Map`/dictionary object, in insertion order. -/
abbrev Pairs (α : Type) := List (String × α)

/-- Model of `map.set(k, v)`: replace in place if the key exists, else append. -/
def jsSet {α : Type} : Pairs α → String → α → Pairs α
  | [], k, v => [(k, v)]
  | kv :: rest, k, v => if kv.1 = k then (k, v) :: rest else kv :: jsSet rest k v

/-- Model of `map.get(k)` (or reading `obj[k]`): value of the first entry with key `k`. -/
def jsGet {α : Type} : Pairs α → String → Option α
  | [], _ => none
  | kv :: rest, k => if kv.1 = k then some kv.2 else jsGet rest k

/-- Model of `map.has(k)` (or the truthiness test `obj[k]` for object values). -/
def jsHas {α : Type} (m : Pairs α) (k : String) : Bool := (jsGet m k).isSome

/-- Keys of the map in insertion order. -/
def keysOf {α : Type} (m : Pairs α) : List String := m.map Prod.fst

/-- Model of `Array.from(map.values())`: values in insertion order. -/
def jsValues {α : Type} (m : Pairs α) : List α := m.map Prod.snd

@[simp] theorem keysOf_nil {α : Type} : keysOf ([] : Pairs α) = [] := rfl

@[simp] theorem keysOf_cons {α : Type} (kv : String × α) (m : Pairs α) :
    keysOf (kv :: m) = kv.1 :: keysOf m := rfl

@[simp] theorem keysOf_append {α : Type} (m m' : Pairs α) :
    keysOf (m ++ m') = keysOf m ++ keysOf m' := by
  simp [keysOf]

@[simp] theorem jsValues_nil {α : Type} : jsValues ([] : Pairs α) = [] := rfl

@[simp] theorem jsValues_cons {α : Type} (kv : String × α) (m : Pairs α) :
    jsValues (kv :: m) = kv.2 :: jsValues m := rfl

@[simp] theorem jsValues_append {α : Type} (m m' : Pairs α) :
    jsValues (m ++ m') = jsValues m ++ jsValues m' := by
  simp [jsValues]

theorem jsGet_jsSet_self {α : Type} (m : Pairs α) (k : String) (v : α) :
    jsGet (jsSet m k v) k = some v := by
  induction m with
  | nil => simp [jsSet, jsGet]
  | cons kv rest ih =>
    by_cases h : kv.1 = k
    · simp [jsSet, jsGet, h]
    · simp [jsSet, jsGet, h, ih]

theorem jsGet_jsSet_ne {α : Type} (m : Pairs α) {k k' : String} (v : α) (h : k' ≠ k) :
    jsGet (jsSet m k v) k' = jsGet m k' := by
  have h' : ¬ (k = k') := fun hh => h hh.symm
  induction m with
  | nil => simp [jsSet, jsGet, h']
  | cons kv rest ih =>
    by_cases hk : kv.1 = k
    · simp [jsSet, jsGet, hk, h']
    · by_cases hk' : kv.1 = k'
      · simp [jsSet, jsGet, hk, hk', h, h']
      · simp [jsSet, jsGet, hk, hk', ih]

theorem mem_keysOf_jsSet {α : Type} (m : Pairs α) (k k' : String) (v : α) :
    k' ∈ keysOf (jsSet m k v) ↔ k' ∈ keysOf m ∨ k' = k := by
  induction m with
  | nil => simp [jsSet]
  | cons kv rest ih =>
    obtain ⟨k0, v0⟩ := kv
    by_cases hk : k0 = k
    · subst hk
      simp only [jsSet, if_pos rfl, ite_true, eq_self_iff_true, if_true, keysOf_cons,
        List.mem_cons]
      tauto
    · have hk' : ¬ ((k0, v0).1 = k) := hk
      simp only [jsSet, if_neg hk', keysOf_cons, List.mem_cons, ih]
      tauto

theorem jsHas_iff_mem {α : Type} (m : Pairs α) (k : String) :
    jsHas m k = true ↔ k ∈ keysOf m := by
  induction m with
  | nil => simp [jsHas, jsGet]
  | cons kv rest ih =>
    by_cases h : kv.1 = k
    · simp [jsHas, jsGet, h]
    · simp only [jsHas, jsGet, if_neg h, keysOf_cons, List.mem_cons]
      rw [← jsHas, ih]
      constructor
      · tauto
      · rintro (h1 | h2)
        · exact absurd h1.symm h
        · exact h2

theorem jsSet_of_not_mem {α : Type} (m : Pairs α) (k : String) (v : α)
    (h : k ∉ keysOf m) : jsSet m k v = m ++ [(k, v)] := by
  induction m with
  | nil => simp [jsSet]
  | cons kv rest ih =>
    simp only [keysOf_cons, List.mem_cons] at h
    push_neg at h
    have h1 : ¬ (kv.1 = k) := fun hh => h.1 hh.symm
    simp [jsSet, h1, ih h.2]

theorem keysOf_jsSet_of_mem {α : Type} (m : Pairs α) (k : String) (v : α)
    (h : k ∈ keysOf m) : keysOf (jsSet m k v) = keysOf m := by
  induction m with
  | nil => simp at h
  | cons kv rest ih =>
    by_cases hk : kv.1 = k
    · simp [jsSet, hk]
    · simp only [keysOf_cons, List.mem_cons] at h
      rcases h with h | h
      · exact absurd h.symm hk
      · simp [jsSet, hk, ih h]

theorem nodup_keysOf_jsSet {α : Type} (m : Pairs α) (k : String) (v : α)
    (h : (keysOf m).Nodup) : (keysOf (jsSet m k v)).Nodup := by
  by_cases hk : k ∈ keysOf m
  · rw [keysOf_jsSet_of_mem m k v hk]; exact h
  · rw [jsSet_of_not_mem m k v hk]
    simp only [keysOf_append, keysOf_cons, keysOf_nil]
    rw [List.nodup_append]
    refine ⟨h, List.nodup_singleton _, ?_⟩
    intro a ha hb
    simp only [List.mem_singleton] at hb
    subst hb
    exact hk ha

/-! ## `mergeAndDeduplicate` (utils.ts)

The records handled by the source are untyped objects keyed by their
`productUrl` field; the embedding is generic over the record type `α` with a
key function `f` standing for the `.productUrl` access. -/

/-- Model of `mergeAndDeduplicate(existingProducts, newProducts)` from utils.ts:
existing products are loaded into a `Map` keyed by `productUrl` (later
duplicates overwrite earlier ones in place), new products are added only when
their key is absent, and the map values are returned in insertion order. -/
def mergeAndDeduplicate {α : Type} (f : α → String) (existing news : List α) : List α :=
  let m0 := existing.foldl (fun m p => jsSet m (f p) p) ([] : Pairs α)
  let m1 := news.foldl (fun m p => if jsHas m (f p) then m else jsSet m (f p) p) m0
  jsValues m1

/-- The first phase of `mergeAndDeduplicate`: load a list into a `Map`. -/
def buildMap {α : Type} (f : α → String) (l : List α) (m : Pairs α) : Pairs α :=
  l.foldl (fun m p => jsSet m (f p) p) m

theorem buildMap_fresh {α : Type} (f : α → String) (l : List α) (m : Pairs α)
    (hfresh : ∀ x ∈ l, f x ∉ keysOf m) (hnd : (l.map f).Nodup) :
    buildMap f l m = m ++ l.map (fun p => (f p, p)) := by
  induction l generalizing m with
  | nil => simp [buildMap]
  | cons x rest ih =>
    simp only [List.map_cons, List.nodup_cons] at hnd
    have hx : f x ∉ keysOf m := hfresh x (List.mem_cons_self x rest)
    have hstep : jsSet m (f x) x = m ++ [(f x, x)] := jsSet_of_not_mem m (f x) x hx
    simp only [buildMap, List.foldl_cons, hstep]
    rw [← buildMap]
    rw [ih (m ++ [(f x, x)])]
    · simp
    · intro y hy
      simp only [keysOf_append, keysOf_cons, keysOf_nil, List.mem_append]
      push_neg
      refine ⟨hfresh y (List.mem_cons_of_mem x hy), ?_⟩
      simp only [List.mem_singleton]
      intro hc
      exact hnd.1 (hc ▸ List.mem_map_of_mem f hy)
    · exact hnd.2

theorem mem_keysOf_buildMap {α : Type} (f : α → String) (l : List α) (m : Pairs α)
    (k : String) : k ∈ keysOf (buildMap f l m) ↔ k ∈ keysOf m ∨ k ∈ l.map f := by
  induction l generalizing m with
  | nil => simp [buildMap]
  | cons x rest ih =>
    simp only [buildMap, List.foldl_cons, List.map_cons, List.mem_cons]
    rw [← buildMap, ih, mem_keysOf_jsSet]
    tauto

theorem nodup_keysOf_buildMap {α : Type} (f : α → String) (l : List α) (m : Pairs α)
    (h : (keysOf m).Nodup) : (keysOf (buildMap f l m)).Nodup := by
  induction l generalizing m with
  | nil => simpa [buildMap] using h
  | cons x rest ih =>
    simp only [buildMap, List.foldl_cons]
    rw [← buildMap]
    exact ih _ (nodup_keysOf_jsSet m (f x) x h)

/-- Every entry of a map built via `jsSet` from record/key pairs stores the
record under its own key. -/
def WellKeyed {α : Type} (f : α → String) (m : Pairs α) : Prop :=
  ∀ kv ∈ m, kv.1 = f kv.2

theorem wellKeyed_jsSet {α : Type} (f : α → String) (m : Pairs α) (p : α) :
    WellKeyed f m → WellKeyed f (jsSet m (f p) p) := by
  induction m with
  | nil =>
    intro _ kv hkv
    simp only [jsSet, List.mem_singleton] at hkv
    subst hkv
    rfl
  | cons kv0 rest ih =>
    intro h kv hkv
    have htail : WellKeyed f rest := fun kv' hkv' => h kv' (List.mem_cons_of_mem _ hkv')
    by_cases hk : kv0.1 = f p
    · simp only [jsSet, if_pos hk, List.mem_cons] at hkv
      rcases hkv with h1 | h1
      · subst h1; rfl
      · exact h kv (List.mem_cons_of_mem _ h1)
    · simp only [jsSet, if_neg hk, List.mem_cons] at hkv
      rcases hkv with h1 | h1
      · exact h1 ▸ h kv0 (List.mem_cons_self _ _)
      · exact ih htail kv h1

theorem wellKeyed_buildMap {α : Type} (f : α → String) (l : List α) (m : Pairs α) :
    WellKeyed f m → WellKeyed f (buildMap f l m) := by
  induction l generalizing m with
  | nil => intro h; simpa [buildMap] using h
  | cons x rest ih =>
    intro h
    simp only [buildMap, List.foldl_cons]
    rw [← buildMap]
    exact ih _ (wellKeyed_jsSet f m x h)

/-- One step of the second phase of `mergeAndDeduplicate`: a new product is
added only when its `productUrl` key is absent from the map. -/
def addNew {α : Type} (f : α → String) (m : Pairs α) (p : α) : Pairs α :=
  if jsHas m (f p) then m else jsSet m (f p) p

theorem mergeAndDeduplicate_single {α : Type} (f : α → String) (P : List α) (r : α) :
    mergeAndDeduplicate f P [r] = jsValues (addNew f (buildMap f P []) r) := rfl

theorem mergeAndDeduplicate_nil {α : Type} (f : α → String) (P : List α) :
    mergeAndDeduplicate f P [] = jsValues (buildMap f P []) := rfl

theorem nodup_keysOf_addNew {α : Type} (f : α → String) (m : Pairs α) (p : α)
    (h : (keysOf m).Nodup) : (keysOf (addNew f m p)).Nodup := by
  unfold addNew
  by_cases hh : jsHas m (f p)
  · rw [if_pos hh]; exact h
  · rw [if_neg hh]; exact nodup_keysOf_jsSet m (f p) p h

theorem wellKeyed_addNew {α : Type} (f : α → String) (m : Pairs α) (p : α)
    (h : WellKeyed f m) : WellKeyed f (addNew f m p) := by
  unfold addNew
  by_cases hh : jsHas m (f p)
  · rw [if_pos hh]; exact h
  · rw [if_neg hh]; exact wellKeyed_jsSet f m p h

theorem addNew_of_mem {α : Type} (f : α → String) (m : Pairs α) (p : α)
    (h : f p ∈ keysOf m) : addNew f m p = m := by
  unfold addNew
  rw [if_pos ((jsHas_iff_mem m (f p)).2 h)]

theorem mem_keysOf_addNew_self {α : Type} (f : α → String) (m : Pairs α) (p : α) :
    f p ∈ keysOf (addNew f m p) := by
  unfold addNew
  by_cases hh : jsHas m (f p)
  · rw [if_pos hh]; exact (jsHas_iff_mem m (f p)).1 hh
  · rw [if_neg hh]; exact (mem_keysOf_jsSet m (f p) (f p) p).2 (Or.inr rfl)

theorem map_pair_jsValues {α : Type} (f : α → String) (m : Pairs α)
    (hwk : WellKeyed f m) : (jsValues m).map (fun p => (f p, p)) = m := by
  unfold jsValues
  rw [List.map_map]
  have : ∀ kv ∈ m, ((fun p => (f p, p)) ∘ Prod.snd) kv = id kv := by
    intro kv hkv
    have := hwk kv hkv
    simp only [Function.comp_apply, id_eq]
    rw [← this]
  rw [List.map_congr_left this, List.map_id]

theorem map_f_jsValues {α : Type} (f : α → String) (m : Pairs α)
    (hwk : WellKeyed f m) : (jsValues m).map f = keysOf m := by
  unfold jsValues keysOf
  rw [List.map_map]
  refine List.map_congr_left ?_
  intro kv hkv
  exact (hwk kv hkv).symm

theorem buildMap_jsValues_self {α : Type} (f : α → String) (m : Pairs α)
    (hnd : (keysOf m).Nodup) (hwk : WellKeyed f m) :
    buildMap f (jsValues m) [] = m := by
  rw [buildMap_fresh]
  · rw [List.nil_append, map_pair_jsValues f m hwk]
  · intro x _
    simp
  · rw [map_f_jsValues f m hwk]
    exact hnd

/-- Claim C3: upserting the same record twice into the file-backed product
store yields the same canonical record set as upserting it once, and when the
record's `productUrl` is already present the existing entry is kept and the new
record is not added (the result is the same as upserting nothing).  The key
function `f` stands for the `.productUrl` field access of the untyped records
handled by `mergeAndDeduplicate`. -/
theorem mergeAndDeduplicate_upsert_idempotent {α : Type} (f : α → String)
    (P : List α) (r : α) :
    mergeAndDeduplicate f (mergeAndDeduplicate f P [r]) [r] = mergeAndDeduplicate f P [r]
    ∧ (f r ∈ P.map f → mergeAndDeduplicate f P [r] = mergeAndDeduplicate f P []) := by
  constructor
  · have hnd0 : (keysOf (buildMap f P ([] : Pairs α))).Nodup :=
      nodup_keysOf_buildMap f P [] (by simp)
    have hwk0 : WellKeyed f (buildMap f P ([] : Pairs α)) :=
      wellKeyed_buildMap f P [] (by intro kv hkv; simp at hkv)
    have hnd : (keysOf (addNew f (buildMap f P []) r)).Nodup :=
      nodup_keysOf_addNew f _ r hnd0
    have hwk : WellKeyed f (addNew f (buildMap f P []) r) :=
      wellKeyed_addNew f _ r hwk0
    have hmem : f r ∈ keysOf (addNew f (buildMap f P []) r) :=
      mem_keysOf_addNew_self f _ r
    rw [mergeAndDeduplicate_single f P r, mergeAndDeduplicate_single]
    rw [buildMap_jsValues_self f _ hnd hwk]
    rw [addNew_of_mem f _ r hmem]
  · intro hmem
    rw [mergeAndDeduplicate_single, mergeAndDeduplicate_nil]
    rw [addNew_of_mem f _ r ((mem_keysOf_buildMap f P [] (f r)).2 (Or.inr hmem))]

/-- Concrete record shape used to instantiate the generic store theorems:
a product with its `productUrl` key and an opaque payload distinguishing
different revisions of the record. -/
structure KeyedRec where
  productUrl : String
  payload : Nat
deriving DecidableEq

/-- Witness for C3 at a concrete store: the url "u" is already present, so a
second upsert changes nothing and the existing entry is kept. -/
theorem mergeAndDeduplicate_upsert_idempotent_witness :
    ("u" = KeyedRec.productUrl ⟨"u", 2⟩ ∧ "u" ∈ [(⟨"u", 1⟩ : KeyedRec)].map KeyedRec.productUrl)
    ∧ mergeAndDeduplicate KeyedRec.productUrl
        (mergeAndDeduplicate KeyedRec.productUrl [⟨"u", 1⟩] [⟨"u", 2⟩]) [⟨"u", 2⟩]
        = mergeAndDeduplicate KeyedRec.productUrl [⟨"u", 1⟩] [⟨"u", 2⟩]
    ∧ mergeAndDeduplicate KeyedRec.productUrl [⟨"u", 1⟩] [⟨"u", 2⟩]
        = mergeAndDeduplicate KeyedRec.productUrl [⟨"u", 1⟩] [] :=
  ⟨⟨rfl, by decide⟩,
   (mergeAndDeduplicate_upsert_idempotent KeyedRec.productUrl [⟨"u", 1⟩] ⟨"u", 2⟩).1,
   (mergeAndDeduplicate_upsert_idempotent KeyedRec.productUrl [⟨"u", 1⟩] ⟨"u", 2⟩).2 (by decide)⟩

/-! ## Failed-target persistence (scraper.service.ts)

`saveFailedProductLineByLine` loads the failed-product file into a `Map` keyed
by `productUrl`, adds the new failed product only when its url is absent, and
only in that case rewrites the file; `removeFailedProduct` filters the file by
url.  The embedding represents the file contents as the list of its entries. -/

/-- Entry of the persisted failed-product file, as written by
`saveFailedProductLineByLine` ({productUrl, productName, error}). -/
structure FailedEntry where
  productUrl : String
  productName : String
  error : String
deriving DecidableEq

/-- Model of `saveFailedProductLineByLine(failedProduct)`: returns the file
contents after the save (the file is rewritten only when the url was absent). -/
def saveFailedProductLineByLine (file : List FailedEntry) (t : FailedEntry) :
    List FailedEntry :=
  let m := buildMap FailedEntry.productUrl file []
  if jsHas m t.productUrl then file else jsValues (jsSet m t.productUrl t)

/-- Model of `removeFailedProduct(url)`: keep the entries whose url differs. -/
def removeFailedProduct (file : List FailedEntry) (url : String) : List FailedEntry :=
  file.filter (fun p => p.productUrl ≠ url)

theorem keysOf_buildMap_file (file : List FailedEntry)
    (hnd : (file.map FailedEntry.productUrl).Nodup) :
    buildMap FailedEntry.productUrl file ([] : Pairs FailedEntry)
      = file.map (fun p => (p.productUrl, p)) := by
  rw [buildMap_fresh]
  · simp
  · intro x _; simp
  · exact hnd

theorem saveFailed_of_mem (file : List FailedEntry) (t : FailedEntry)
    (hmem : t.productUrl ∈ file.map FailedEntry.productUrl) :
    saveFailedProductLineByLine file t = file := by
  unfold saveFailedProductLineByLine
  rw [if_pos ((jsHas_iff_mem _ _).2
    ((mem_keysOf_buildMap FailedEntry.productUrl file [] t.productUrl).2 (Or.inr hmem)))]

theorem saveFailed_of_not_mem (file : List FailedEntry) (t : FailedEntry)
    (hnd : (file.map FailedEntry.productUrl).Nodup)
    (hmem : t.productUrl ∉ file.map FailedEntry.productUrl) :
    saveFailedProductLineByLine file t = file ++ [t] := by
  have hbuild := keysOf_buildMap_file file hnd
  have hkeys : keysOf (buildMap FailedEntry.productUrl file ([] : Pairs FailedEntry))
      = file.map FailedEntry.productUrl := by
    rw [hbuild]
    unfold keysOf
    rw [List.map_map]
    rfl
  unfold saveFailedProductLineByLine
  rw [if_neg (fun hc => hmem (hkeys ▸ (jsHas_iff_mem _ _).1 hc))]
  rw [jsSet_of_not_mem _ _ _ (hkeys ▸ hmem), hbuild]
  simp only [jsValues_append, jsValues_cons, jsValues_nil]
  unfold jsValues
  rw [List.map_map]
  have : (Prod.snd ∘ fun p : FailedEntry => (p.productUrl, p)) = id := rfl
  rw [this, List.map_id]

theorem mem_map_saveFailed (file : List FailedEntry) (t : FailedEntry) :
    t.productUrl ∈ (saveFailedProductLineByLine file t).map FailedEntry.productUrl := by
  unfold saveFailedProductLineByLine
  by_cases hh : jsHas (buildMap FailedEntry.productUrl file []) t.productUrl
  · rw [if_pos hh]
    have := (mem_keysOf_buildMap FailedEntry.productUrl file [] t.productUrl).1
      ((jsHas_iff_mem _ _).1 hh)
    simpa using this
  · rw [if_neg hh]
    rw [map_f_jsValues FailedEntry.productUrl _
      (wellKeyed_jsSet FailedEntry.productUrl _ t
        (wellKeyed_buildMap FailedEntry.productUrl file [] (by intro kv hkv; simp at hkv)))]
    exact (mem_keysOf_jsSet _ _ _ t).2 (Or.inr rfl)

/-- Claim C6: the persisted Failed set keeps at most one entry per url across
save operations: saving a target whose url is already present leaves the file
unchanged, and saving a target with a fresh url appends exactly that one entry
(so urls stay pairwise distinct). -/
theorem saveFailedProduct_set_semantics (file : List FailedEntry) (t : FailedEntry)
    (hnd : (file.map FailedEntry.productUrl).Nodup) :
    ((saveFailedProductLineByLine file t).map FailedEntry.productUrl).Nodup
    ∧ (t.productUrl ∈ file.map FailedEntry.productUrl →
        saveFailedProductLineByLine file t = file)
    ∧ (t.productUrl ∉ file.map FailedEntry.productUrl →
        saveFailedProductLineByLine file t = file ++ [t]) := by
  by_cases hmem : t.productUrl ∈ file.map FailedEntry.productUrl
  · have hsave := saveFailed_of_mem file t hmem
    refine ⟨?_, fun _ => hsave, fun hc => absurd hmem hc⟩
    rw [hsave]
    exact hnd
  · have hsave := saveFailed_of_not_mem file t hnd hmem
    refine ⟨?_, fun hc => absurd hc hmem, fun _ => hsave⟩
    rw [hsave]
    simp only [List.map_append, List.map_cons, List.map_nil]
    rw [List.nodup_append]
    refine ⟨hnd, List.nodup_singleton _, ?_⟩
    intro a ha hb
    simp only [List.mem_singleton] at hb
    subst hb
    exact hmem ha

/-- Witness for C6: saving an already-present url is a no-op, and saving a
fresh url appends exactly one entry. -/
theorem saveFailedProduct_set_semantics_witness :
    (([⟨"u", "n", "e"⟩] : List FailedEntry).map FailedEntry.productUrl).Nodup
    ∧ saveFailedProductLineByLine [⟨"u", "n", "e"⟩] ⟨"u", "n2", "e2"⟩ = [⟨"u", "n", "e"⟩]
    ∧ saveFailedProductLineByLine [⟨"u", "n", "e"⟩] ⟨"v", "n2", "e2"⟩
        = [⟨"u", "n", "e"⟩] ++ [⟨"v", "n2", "e2"⟩] :=
  ⟨by decide,
   (saveFailedProduct_set_semantics [⟨"u", "n", "e"⟩] ⟨"u", "n2", "e2"⟩ (by decide)).2.1
     (by decide),
   (saveFailedProduct_set_semantics [⟨"u", "n", "e"⟩] ⟨"v", "n2", "e2"⟩ (by decide)).2.2
     (by decide)⟩

/-! ## `processLinks` (scraper.service.ts)

One loop iteration navigates to a target, extracts a record, and either saves
a failed entry (on exception, or when `title`/`preTitle` is falsy) or merges
the record into the products file (`saveProductData`), removing the url from
the failed file when in retry mode. -/

/-- Extracted product record, restricted to the fields `processLinks` inspects:
`productUrl` and `linkText` are always set by `extractProductData`, while the
required fields `title`/`preTitle` may be absent (`none`, modelling
`undefined`/`null`) or empty strings. -/
structure PRecord where
  productUrl : String
  linkText : String
  title : Option String
  preTitle : Option String
deriving DecidableEq

/-- JavaScript falsiness of a possibly-absent string field (as in
`!productData.title`): `undefined`, `null` and `''` are all falsy. -/
def falsyStr : Option String → Bool
  | none => true
  | some s => s == ""

/-- Outcome of navigating to one target and extracting it: an exception with
its message, or an extracted record. -/
inductive ExtractOutcome where
  | err (msg : String)
  | ok (r : PRecord)
deriving DecidableEq

/-- Persisted state updated by `processLinks`: the failed-product file and the
products file. -/
structure ScrapeState where
  failed : List FailedEntry
  products : List PRecord
deriving DecidableEq

/-- Model of one iteration of the `processLinks` loop for the target
`(url, productName)` with extraction outcome `outcome`:
an exception saves a failed entry carrying the exception message; a falsy
`title` or `preTitle` saves a failed entry with reason
`"Missing required fields"` and skips the product save (`continue`); otherwise
the record is merged into the products file (`saveProductData`, which calls
`mergeAndDeduplicate`), and in retry mode the url is then removed from the
failed file (`removeFailedProduct`). -/
def processOne (isRetry : Bool) (st : ScrapeState) (url productName : String)
    (outcome : ExtractOutcome) : ScrapeState :=
  match outcome with
  | .err msg =>
    { st with failed := saveFailedProductLineByLine st.failed ⟨url, productName, msg⟩ }
  | .ok r =>
    if falsyStr r.title || falsyStr r.preTitle then
      { st with failed :=
          saveFailedProductLineByLine st.failed ⟨url, productName, "Missing required fields"⟩ }
    else
      let st2 := { st with products := mergeAndDeduplicate PRecord.productUrl st.products [r] }
      if isRetry then { st2 with failed := removeFailedProduct st2.failed url } else st2

/-- Model of the whole `processLinks` loop: fold `processOne` over the list of
targets, each target paired with its extraction outcome. -/
def processLinks (isRetry : Bool) (st : ScrapeState)
    (links : List (String × String × ExtractOutcome)) : ScrapeState :=
  links.foldl (fun st l => processOne isRetry st l.1 l.2.1 l.2.2) st

theorem not_mem_map_removeFailedProduct (file : List FailedEntry) (url : String) :
    url ∉ (removeFailedProduct file url).map FailedEntry.productUrl := by
  intro h
  rcases List.mem_map.1 h with ⟨p, hp, hpe⟩
  rcases List.mem_filter.1 hp with ⟨_, hpred⟩
  simp only [ne_eq, decide_not, Bool.not_eq_true', decide_eq_false_iff_not] at hpred
  exact hpred hpe

theorem mem_map_mergeAndDeduplicate_single {α : Type} (f : α → String)
    (P : List α) (r : α) : f r ∈ (mergeAndDeduplicate f P [r]).map f := by
  rw [mergeAndDeduplicate_single]
  rw [map_f_jsValues f _
    (wellKeyed_addNew f _ r (wellKeyed_buildMap f P [] (by intro kv hkv; simp at hkv)))]
  exact mem_keysOf_addNew_self f _ r

/-- Claim C1: when extraction yields a falsy (empty or missing) `title` or
`preTitle`, `processLinks` enqueues the target into the persisted Failed set
with error reason `"Missing required fields"` (when the url is fresh it is
appended as exactly that entry) and leaves the products file untouched; when a
retry-tier pass (`isRetry = true`) extracts a record satisfying the
required-fields predicate, the record is upserted into the products file and
the url is removed from the Failed set. -/
theorem processLinks_required_fields_policy (isRetry : Bool) (st : ScrapeState)
    (url productName : String) (r : PRecord) (hkey : r.productUrl = url)
    (hnd : (st.failed.map FailedEntry.productUrl).Nodup) :
    ((falsyStr r.title || falsyStr r.preTitle) = true →
      (processOne isRetry st url productName (.ok r)).products = st.products
      ∧ url ∈ (processOne isRetry st url productName (.ok r)).failed.map FailedEntry.productUrl
      ∧ (url ∉ st.failed.map FailedEntry.productUrl →
          (processOne isRetry st url productName (.ok r)).failed
            = st.failed ++ [⟨url, productName, "Missing required fields"⟩]))
    ∧ ((falsyStr r.title || falsyStr r.preTitle) = false →
      (processOne true st url productName (.ok r)).products
        = mergeAndDeduplicate PRecord.productUrl st.products [r]
      ∧ url ∈ (processOne true st url productName (.ok r)).products.map PRecord.productUrl
      ∧ url ∉ (processOne true st url productName (.ok r)).failed.map FailedEntry.productUrl) := by
  constructor
  · intro hfalsy
    have hred : processOne isRetry st url productName (.ok r)
        = { st with failed :=
            saveFailedProductLineByLine st.failed ⟨url, productName, "Missing required fields"⟩ } := by
      simp [processOne, hfalsy]
    rw [hred]
    refine ⟨rfl, ?_, ?_⟩
    · exact mem_map_saveFailed st.failed ⟨url, productName, "Missing required fields"⟩
    · intro hfresh
      exact saveFailed_of_not_mem st.failed ⟨url, productName, "Missing required fields"⟩ hnd hfresh
  · intro hok
    have hred : processOne true st url productName (.ok r)
        = { failed := removeFailedProduct st.failed url,
            products := mergeAndDeduplicate PRecord.productUrl st.products [r] } := by
      simp [processOne, hok]
    rw [hred]
    refine ⟨rfl, ?_, ?_⟩
    · exact hkey ▸ mem_map_mergeAndDeduplicate_single PRecord.productUrl st.products r
    · exact not_mem_map_removeFailedProduct st.failed url

/-- Witness for C1: a record with empty `title` is enqueued as a
`"Missing required fields"` failure without touching the products file, and a
retry-tier success is upserted while its url leaves the Failed set. -/
theorem processLinks_required_fields_policy_witness :
    ((falsyStr (some "") || falsyStr (some "P")) = true
      ∧ (processOne false ⟨[], []⟩ "u" "n" (.ok ⟨"u", "n", some "", some "P"⟩)).products = []
      ∧ (processOne false ⟨[], []⟩ "u" "n" (.ok ⟨"u", "n", some "", some "P"⟩)).failed
          = [] ++ [⟨"u", "n", "Missing required fields"⟩])
    ∧ ((falsyStr (some "T") || falsyStr (some "P")) = false
      ∧ "u" ∈ (processOne true ⟨[⟨"u", "n", "boom"⟩], []⟩ "u" "n"
            (.ok ⟨"u", "n", some "T", some "P"⟩)).products.map PRecord.productUrl
      ∧ "u" ∉ (processOne true ⟨[⟨"u", "n", "boom"⟩], []⟩ "u" "n"
            (.ok ⟨"u", "n", some "T", some "P"⟩)).failed.map FailedEntry.productUrl) :=
  ⟨⟨by decide,
    ((processLinks_required_fields_policy false ⟨[], []⟩ "u" "n" ⟨"u", "n", some "", some "P"⟩
        rfl (by decide)).1 (by decide)).1,
    ((processLinks_required_fields_policy false ⟨[], []⟩ "u" "n" ⟨"u", "n", some "", some "P"⟩
        rfl (by decide)).1 (by decide)).2.2 (by decide)⟩,
   ⟨by decide,
    ((processLinks_required_fields_policy true ⟨[⟨"u", "n", "boom"⟩], []⟩ "u" "n"
        ⟨"u", "n", some "T", some "P"⟩ rfl (by decide)).2 (by decide)).2.1,
    ((processLinks_required_fields_policy true ⟨[⟨"u", "n", "boom"⟩], []⟩ "u" "n"
        ⟨"u", "n", some "T", some "P"⟩ rfl (by decide)).2 (by decide)).2.2⟩⟩

/-! ## `mergeAllProducts` (utils.ts)

The category→product aggregation reads the category file, accumulates products
in a dictionary keyed by product link, and for an already-present link replaces
its `internalLinks` with `[...new Set([...old, ...new])]`.  A JavaScript `Set`
compares objects by reference; `JSON.parse` always produces pairwise distinct
object references, so the `ref` field below models the object identity of each
parsed link object, distinct from its `name`/`link` payload. -/

/-- Internal-link object (as produced by `scrapeInternalLinksForProduct` and
re-parsed from the category file); `ref` models its JavaScript object
reference. -/
structure ILink where
  ref : Nat
  name : String
  link : String
deriving DecidableEq

/-- Product entry of a category in the category file; `internalLinks = none`
models a missing `internalLinks` field. -/
structure CatProduct where
  name : String
  link : String
  internalLinks : Option (List ILink)
deriving DecidableEq

/-- Category entry of the category file. -/
structure Category where
  categoryName : String
  link : String
  products : List CatProduct
deriving DecidableEq

/-- Merged product record `{...product, categoryName, categoryLink}` as stored
in `mergedProducts`. -/
structure MergedProduct where
  name : String
  link : String
  internalLinks : List ILink
  categoryName : String
  categoryLink : String
deriving DecidableEq

/-- One step of `[...new Set(list)]` on link objects: keep the element unless an
element with the same object reference was already kept. -/
def dedupStep (acc : List ILink) (x : ILink) : List ILink :=
  if acc.any (fun y => y.ref == x.ref) then acc else acc ++ [x]

/-- Model of `[...new Set(list)]` on an array of link objects: first occurrence
of each object reference, in insertion order. -/
def jsSetDedup (l : List ILink) : List ILink := l.foldl dedupStep []

/-- Model of one iteration of the inner `category.products.forEach` loop of
`mergeAllProducts`: a fresh product link is added only when its
`internalLinks` is present and non-empty; an already-present link gets
`internalLinks` replaced by `[...new Set([...old, ...new])]` (`none` there
models the `TypeError` thrown by spreading `undefined`). -/
def addProduct (catName catLink : String) (m : Pairs MergedProduct) (p : CatProduct) :
    Option (Pairs MergedProduct) :=
  if jsHas m p.link then
    match p.internalLinks, jsGet m p.link with
    | none, _ => none
    | some _, none => none
    | some ils, some mp =>
        some (jsSet m p.link { mp with internalLinks := jsSetDedup (mp.internalLinks ++ ils) })
  else
    match p.internalLinks with
    | some ils =>
        if ils.length > 0 then some (jsSet m p.link ⟨p.name, p.link, ils, catName, catLink⟩)
        else some m
    | none => some m

/-- The inner loop of `mergeAllProducts` over one category's products. -/
def mergeProducts (catName catLink : String) :
    Pairs MergedProduct → List CatProduct → Option (Pairs MergedProduct)
  | m, [] => some m
  | m, p :: ps =>
    match addProduct catName catLink m p with
    | none => none
    | some m' => mergeProducts catName catLink m' ps

/-- The outer loop of `mergeAllProducts` over the categories (the source skips
categories with an empty `products` array, which is the identity here). -/
def mergeCats : Pairs MergedProduct → List Category → Option (Pairs MergedProduct)
  | m, [] => some m
  | m, c :: cs =>
    match mergeProducts c.categoryName c.link m c.products with
    | none => none
    | some m' => mergeCats m' cs

/-- Model of `mergeAllProducts`: the array written to the output file and
returned (`Object.values(mergedProducts)`); `none` models an uncaught
`TypeError` aborting the merge. -/
def mergeAllProducts (cats : List Category) : Option (List MergedProduct) :=
  (mergeCats [] cats).map jsValues

theorem foldl_dedupStep_fresh (l : List ILink) :
    ∀ acc : List ILink, (∀ x ∈ l, ∀ y ∈ acc, y.ref ≠ x.ref) →
    (l.map ILink.ref).Nodup → l.foldl dedupStep acc = acc ++ l := by
  induction l with
  | nil => intro acc _ _; simp
  | cons x rest ih =>
    intro acc hfresh hnd
    simp only [List.map_cons, List.nodup_cons] at hnd
    have hany : acc.any (fun y => y.ref == x.ref) = false := by
      rw [List.any_eq_false]
      intro y hy
      simpa using hfresh x (List.mem_cons_self x rest) y hy
    simp only [List.foldl_cons, dedupStep, hany, Bool.false_eq_true, if_false]
    rw [ih (acc ++ [x])]
    · simp
    · intro z hz y hy
      rcases List.mem_append.1 hy with hy | hy
      · exact hfresh z (List.mem_cons_of_mem x hz) y hy
      · simp only [List.mem_singleton] at hy
        subst hy
        intro hc
        exact hnd.1 (hc ▸ List.mem_map_of_mem ILink.ref hz)
    · exact hnd.2

theorem foldl_dedupStep_extend (l : List ILink) :
    ∀ acc : List ILink, ∃ rest, l.foldl dedupStep acc = acc ++ rest := by
  induction l with
  | nil => intro acc; exact ⟨[], by simp⟩
  | cons x t ih =>
    intro acc
    simp only [List.foldl_cons, dedupStep]
    by_cases hany : acc.any (fun y => y.ref == x.ref) = true
    · rw [if_pos hany]
      exact ih acc
    · rw [if_neg hany]
      rcases ih (acc ++ [x]) with ⟨r, hr⟩
      exact ⟨[x] ++ r, by rw [hr, List.append_assoc]⟩

theorem jsSetDedup_of_nodup_refs (l : List ILink) (hnd : (l.map ILink.ref).Nodup) :
    jsSetDedup l = l := by
  unfold jsSetDedup
  rw [foldl_dedupStep_fresh l [] (by intro x _ y hy; simp at hy) hnd]
  simp

theorem jsSetDedup_ne_nil (l : List ILink) (h : l ≠ []) : jsSetDedup l ≠ [] := by
  match l, h with
  | x :: t, _ =>
    unfold jsSetDedup
    simp only [List.foldl_cons, dedupStep, List.any_nil, Bool.false_eq_true, if_false,
      List.nil_append]
    rcases foldl_dedupStep_extend t [x] with ⟨r, hr⟩
    rw [hr]
    simp

theorem jsGet_mem {α : Type} (m : Pairs α) (k : String) (v : α)
    (h : jsGet m k = some v) : (k, v) ∈ m := by
  induction m with
  | nil => simp [jsGet] at h
  | cons kv rest ih =>
    by_cases hk : kv.1 = k
    · simp only [jsGet, if_pos hk] at h
      have : kv = (k, v) := by
        cases kv
        simp only [Option.some.injEq] at h
        simp_all
      exact this ▸ List.mem_cons_self kv rest
    · simp only [jsGet, if_neg hk] at h
      exact List.mem_cons_of_mem kv (ih h)

/-- Invariant maintained over the merged-products dictionary: every stored
record has a non-empty `internalLinks` list. -/
def NonEmptyLinks (m : Pairs MergedProduct) : Prop :=
  ∀ kv ∈ m, kv.2.internalLinks ≠ []

theorem nonEmptyLinks_jsSet (m : Pairs MergedProduct) (k : String) (v : MergedProduct)
    (hv : v.internalLinks ≠ []) (hm : NonEmptyLinks m) : NonEmptyLinks (jsSet m k v) := by
  induction m with
  | nil =>
    intro kv hkv
    simp only [jsSet, List.mem_singleton] at hkv
    rw [hkv]
    exact hv
  | cons kv0 rest ih =>
    intro kv hkv
    have htail : NonEmptyLinks rest := fun kv' hkv' => hm kv' (List.mem_cons_of_mem _ hkv')
    by_cases hk : kv0.1 = k
    · simp only [jsSet, if_pos hk, List.mem_cons] at hkv
      rcases hkv with h1 | h1
      · rw [h1]; exact hv
      · exact hm kv (List.mem_cons_of_mem _ h1)
    · simp only [jsSet, if_neg hk, List.mem_cons] at hkv
      rcases hkv with h1 | h1
      · exact h1 ▸ hm kv0 (List.mem_cons_self _ _)
      · exact ih htail kv h1

theorem nonEmptyLinks_addProduct (catName catLink : String) (m : Pairs MergedProduct)
    (p : CatProduct) (m' : Pairs MergedProduct)
    (h : addProduct catName catLink m p = some m') (hm : NonEmptyLinks m) :
    NonEmptyLinks m' := by
  unfold addProduct at h
  by_cases hh : jsHas m p.link = true
  · rw [if_pos hh] at h
    match hils : p.internalLinks, hget : jsGet m p.link with
    | none, _ =>
      rw [hils] at h
      simp at h
    | some ils, none =>
      rw [hils, hget] at h
      simp at h
    | some ils, some mp =>
      rw [hils, hget] at h
      simp only [Option.some.injEq] at h
      have hmp : mp.internalLinks ≠ [] := hm (p.link, mp) (jsGet_mem m p.link mp hget)
      have hne : mp.internalLinks ++ ils ≠ [] := by
        intro hc
        exact hmp (List.append_eq_nil.1 hc).1
      rw [← h]
      exact nonEmptyLinks_jsSet m p.link _ (jsSetDedup_ne_nil _ hne) hm
  · rw [if_neg hh] at h
    match hils : p.internalLinks with
    | some ils =>
      rw [hils] at h
      dsimp only at h
      by_cases hlen : ils.length > 0
      · rw [if_pos hlen] at h
        simp only [Option.some.injEq] at h
        rw [← h]
        refine nonEmptyLinks_jsSet m p.link _ ?_ hm
        intro hc
        dsimp only at hc
        rw [hc] at hlen
        simp at hlen
      · rw [if_neg hlen] at h
        simp only [Option.some.injEq] at h
        rw [← h]
        exact hm
    | none =>
      rw [hils] at h
      simp only [Option.some.injEq] at h
      rw [← h]
      exact hm

theorem nonEmptyLinks_mergeProducts (catName catLink : String) (ps : List CatProduct) :
    ∀ (m m' : Pairs MergedProduct), mergeProducts catName catLink m ps = some m' →
    NonEmptyLinks m → NonEmptyLinks m' := by
  induction ps with
  | nil =>
    intro m m' h hm
    simp only [mergeProducts, Option.some.injEq] at h
    exact h ▸ hm
  | cons p rest ih =>
    intro m m' h hm
    simp only [mergeProducts] at h
    match hadd : addProduct catName catLink m p with
    | none => rw [hadd] at h; simp at h
    | some m1 =>
      rw [hadd] at h
      exact ih m1 m' h (nonEmptyLinks_addProduct catName catLink m p m1 hadd hm)

theorem nonEmptyLinks_mergeCats (cats : List Category) :
    ∀ (m m' : Pairs MergedProduct), mergeCats m cats = some m' →
    NonEmptyLinks m → NonEmptyLinks m' := by
  induction cats with
  | nil =>
    intro m m' h hm
    simp only [mergeCats, Option.some.injEq] at h
    exact h ▸ hm
  | cons c rest ih =>
    intro m m' h hm
    simp only [mergeCats] at h
    match hmp : mergeProducts c.categoryName c.link m c.products with
    | none => rw [hmp] at h; simp at h
    | some m1 =>
      rw [hmp] at h
      exact ih m1 m' h (nonEmptyLinks_mergeProducts c.categoryName c.link c.products m m1 hmp hm)

/-- Counterexample to claim C2 as stated: two categories contribute the same
product url with links of identical `(name, link)` identity but (necessarily)
distinct object references after `JSON.parse`; the merged record keeps both, so
the internal-links list does contain duplicate link identities. -/
theorem mergeAllProducts_duplicate_link_identities :
    mergeAllProducts
      [⟨"cat1", "k1", [⟨"p", "P", some [⟨0, "a", "L"⟩]⟩]⟩,
       ⟨"cat2", "k2", [⟨"p", "P", some [⟨1, "a", "L"⟩]⟩]⟩]
      = some [⟨"p", "P", [⟨0, "a", "L"⟩, ⟨1, "a", "L"⟩], "cat1", "k1"⟩]
    ∧ ¬ (([⟨0, "a", "L"⟩, ⟨1, "a", "L"⟩] : List ILink).map
          (fun il => (il.name, il.link))).Nodup := by
  decide

/-- Claim C2 (amended): a product url occurring under two categories yields a
single output record, and its internal-links list is the concatenation of the
per-category lists in input order — the `new Set` dedup operates on object
references, which are pairwise distinct after `JSON.parse`, so no
identity-based deduplication happens. -/
theorem mergeAllProducts_union_by_reference
    (n1 n2 k1 k2 pn purl : String) (l1 l2 : List ILink)
    (hrefs : ((l1 ++ l2).map ILink.ref).Nodup) (h1 : l1 ≠ []) :
    mergeAllProducts
      [⟨n1, k1, [⟨pn, purl, some l1⟩]⟩, ⟨n2, k2, [⟨pn, purl, some l2⟩]⟩]
      = some [⟨pn, purl, l1 ++ l2, n1, k1⟩] := by
  have hlen : l1.length > 0 := List.length_pos.2 h1
  have hadd1 : addProduct n1 k1 [] ⟨pn, purl, some l1⟩
      = some [(purl, ⟨pn, purl, l1, n1, k1⟩)] := by
    unfold addProduct
    rw [if_neg (by simp [jsHas, jsGet])]
    dsimp only
    rw [if_pos hlen]
    rfl
  have hget : jsGet [(purl, (⟨pn, purl, l1, n1, k1⟩ : MergedProduct))] purl
      = some ⟨pn, purl, l1, n1, k1⟩ := by
    simp [jsGet]
  have hadd2 : addProduct n2 k2 [(purl, ⟨pn, purl, l1, n1, k1⟩)] ⟨pn, purl, some l2⟩
      = some [(purl, ⟨pn, purl, l1 ++ l2, n1, k1⟩)] := by
    unfold addProduct
    rw [if_pos (by simp [jsHas, jsGet])]
    rw [hget]
    dsimp only
    rw [jsSetDedup_of_nodup_refs _ hrefs]
    simp [jsSet]
  have hm1 : mergeProducts n1 k1 [] [⟨pn, purl, some l1⟩]
      = some [(purl, ⟨pn, purl, l1, n1, k1⟩)] := by
    simp only [mergeProducts, hadd1]
  have hm2 : mergeProducts n2 k2 [(purl, ⟨pn, purl, l1, n1, k1⟩)] [⟨pn, purl, some l2⟩]
      = some [(purl, ⟨pn, purl, l1 ++ l2, n1, k1⟩)] := by
    simp only [mergeProducts, hadd2]
  have hcats : mergeCats ([] : Pairs MergedProduct)
      [⟨n1, k1, [⟨pn, purl, some l1⟩]⟩, ⟨n2, k2, [⟨pn, purl, some l2⟩]⟩]
      = some [(purl, ⟨pn, purl, l1 ++ l2, n1, k1⟩)] := by
    simp only [mergeCats, hm1, hm2]
  unfold mergeAllProducts
  rw [hcats]
  rfl

/-- Witness for C2 (amended) at concrete categories with distinct references. -/
theorem mergeAllProducts_union_by_reference_witness :
    ((([⟨0, "a", "L"⟩] ++ [⟨1, "b", "M"⟩] : List ILink).map ILink.ref).Nodup
      ∧ ([⟨0, "a", "L"⟩] : List ILink) ≠ [])
    ∧ mergeAllProducts
        [⟨"c1", "k1", [⟨"p", "P", some [⟨0, "a", "L"⟩]⟩]⟩,
         ⟨"c2", "k2", [⟨"p", "P", some [⟨1, "b", "M"⟩]⟩]⟩]
      = some [⟨"p", "P", [⟨0, "a", "L"⟩] ++ [⟨1, "b", "M"⟩], "c1", "k1"⟩] :=
  ⟨⟨by decide, by decide⟩,
   mergeAllProducts_union_by_reference "c1" "c2" "k1" "k2" "p" "P"
     [⟨0, "a", "L"⟩] [⟨1, "b", "M"⟩] (by decide) (by decide)⟩

/-- Counterexample to the "excluded at its first occurrence" part of claim C10:
a product whose first occurrence has empty `internalLinks` is skipped there but
still added by a later occurrence with a non-empty list, so it is not excluded
from the output. -/
theorem mergeAllProducts_first_occurrence_not_excluding :
    mergeAllProducts
      [⟨"c1", "k1", [⟨"p", "P", some []⟩]⟩,
       ⟨"c2", "k2", [⟨"p", "P", some [⟨0, "a", "L"⟩]⟩]⟩]
      = some [⟨"p", "P", [⟨0, "a", "L"⟩], "c2", "k2"⟩] := by
  decide

/-- Claim C10 (amended): whenever `mergeAllProducts` returns (does not throw),
every record of the output has a non-empty `internalLinks` list — occurrences
with missing or empty `internalLinks` are never added (the record enters at its
first occurrence with a non-empty list, if any) — and the merge branch for an
already-present url only extends the stored list. -/
theorem mergeAllProducts_nonempty_invariant :
    (∀ (cats : List Category) (out : List MergedProduct),
        mergeAllProducts cats = some out → ∀ p ∈ out, p.internalLinks ≠ [])
    ∧ ∀ (old extra : List ILink), (old.map ILink.ref).Nodup →
        ∃ rest, jsSetDedup (old ++ extra) = old ++ rest := by
  constructor
  · intro cats out h p hp
    unfold mergeAllProducts at h
    match hmc : mergeCats [] cats with
    | none => rw [hmc] at h; simp at h
    | some m =>
      rw [hmc] at h
      simp only [Option.map_some', Option.some.injEq] at h
      have hinv : NonEmptyLinks m :=
        nonEmptyLinks_mergeCats cats [] m hmc (by intro kv hkv; simp at hkv)
      rw [← h] at hp
      unfold jsValues at hp
      rcases List.mem_map.1 hp with ⟨kv, hkv, hkvp⟩
      exact hkvp ▸ hinv kv hkv
  · intro old extra hnd
    unfold jsSetDedup
    rw [List.foldl_append]
    rw [foldl_dedupStep_fresh old [] (by intro x _ y hy; simp at hy) hnd]
    simp only [List.nil_append]
    exact foldl_dedupStep_extend extra old

/-- Witness for C10 at a concrete input. -/
theorem mergeAllProducts_nonempty_invariant_witness :
    mergeAllProducts [⟨"c", "k", [⟨"p", "P", some [⟨0, "a", "L"⟩]⟩]⟩]
        = some [⟨"p", "P", [⟨0, "a", "L"⟩], "c", "k"⟩]
    ∧ (∀ p ∈ [(⟨"p", "P", [⟨0, "a", "L"⟩], "c", "k"⟩ : MergedProduct)],
        p.internalLinks ≠ [])
    ∧ ∃ rest, jsSetDedup ([⟨0, "a", "L"⟩] ++ [⟨1, "b", "M"⟩]) = [⟨0, "a", "L"⟩] ++ rest :=
  ⟨by decide,
   fun p hp => mergeAllProducts_nonempty_invariant.1
     [⟨"c", "k", [⟨"p", "P", some [⟨0, "a", "L"⟩]⟩]⟩]
     [⟨"p", "P", [⟨0, "a", "L"⟩], "c", "k"⟩] (by decide) p hp,
   mergeAllProducts_nonempty_invariant.2 [⟨0, "a", "L"⟩] [⟨1, "b", "M"⟩] (by decide)⟩

/-! ## Scalar field extraction (`extractProductData`, utils.ts)

For every config entry whose value is a string selector, the page-side code
collects the trimmed `textContent` of all matches, drops empty strings, joins
with single spaces and collapses whitespace runs.  A page is modelled by the
list of matched texts for the field's selector. -/

/-- JavaScript whitespace as matched by `\s` (ASCII part: space, tab, newline,
carriage return, vertical tab, form feed). -/
def jsIsSpace (c : Char) : Bool :=
  c == ' ' || c == '\t' || c == '\n' || c == '\r' || c == Char.ofNat 11 || c == Char.ofNat 12

/-- Model of `String.prototype.trim`. -/
def jsTrim (s : String) : String :=
  String.mk (((s.toList.dropWhile (fun c => jsIsSpace c)).reverse.dropWhile
    (fun c => jsIsSpace c)).reverse)

/-- Helper for `collapseWs`: the flag records whether the previous character
was part of a whitespace run already replaced by one space. -/
def collapseWsAux : Bool → List Char → List Char
  | _, [] => []
  | inRun, c :: cs =>
    if jsIsSpace c then
      if inRun then collapseWsAux true cs else ' ' :: collapseWsAux true cs
    else c :: collapseWsAux false cs

/-- Model of `.replace(/\s+/g, ' ')`: every whitespace run becomes one space. -/
def collapseWs (s : String) : String := String.mk (collapseWsAux false s.toList)

/-- Model of `Array.prototype.join(' ')`. -/
def joinSpace : List String → String
  | [] => ""
  | [x] => x
  | x :: xs => x ++ " " ++ joinSpace xs

/-- Model of the `extractText` helper of `extractProductData`: trimmed
`textContent` of every selector match, with empty strings dropped. -/
def extractText (found : List String) : List String :=
  (found.map jsTrim).filter (fun s => s != "")

/-- Model of the scalar (string-selector) branch of `extractProductData`
(utils.ts lines 79–91): trim each extracted item, drop empties, join with
single spaces, collapse whitespace runs.  The `isRetry` tier flag is a
parameter because the claim distinguishes tiers, but the source loop never
consults it; the assigned value is always a string (`some _`), never `null`. -/
def extractScalarField (isRetry : Bool) (found : List String) : Option String :=
  let _ := isRetry
  let elements := (extractText found).map jsTrim |>.filter (fun s => s != "")
  some (collapseWs (joinSpace elements))

/-- Counterexample to claim C4 as stated: with zero selector matches in a retry
tier the extracted scalar field is the empty string `''`, not `null`. -/
theorem extractScalarField_retry_empty_not_null :
    extractScalarField true [] = some "" ∧ extractScalarField true [] ≠ none := by
  decide

/-- Claim C4 (amended): for a string-selector field, exactly one match yields
its trimmed text, several matches yield the texts joined by single spaces with
internal whitespace runs collapsed, and zero matches yield `''` in every tier —
the scalar loop is tier-independent, so retry tiers also produce `''`, not
`null`. -/
theorem extractScalarField_cases (isRetry : Bool) :
    extractScalarField isRetry [" Router X "] = some "Router X"
    ∧ extractScalarField isRetry ["A", "B"] = some "A B"
    ∧ extractScalarField isRetry [] = some ""
    ∧ extractScalarField isRetry [] = extractScalarField (!isRetry) [] := by
  cases isRetry <;> decide

/-! ## URL sanitization (`scrapeProductsForCategory` and
`scrapeInternalLinksForProduct`, scraper.service.ts)

The two link-discovery paths each define their own `sanitizeUrl` closure.  The
product-discovery one has five rules (empty/null rejection, `//www` fixing,
duplicate-base-origin collapse, root-relative resolution, `http` acceptance);
the internal-link one only has the last three.  The duplicate detection counts
matches of `new RegExp(baseUrl, 'g')`, where the only regex metacharacter in a
base origin is `.` (any character except newline); the collapse keeps the last
`split(baseUrl)` segment. -/

/-- One pattern character of `new RegExp(baseUrl)`: `.` matches anything but a
newline, other characters match literally. -/
def regexCharMatches (p c : Char) : Bool :=
  if p = '.' then c != '\n' else p == c

/-- Does the pattern match at the head of the string? -/
def regexMatchesAt : List Char → List Char → Bool
  | [], _ => true
  | _ :: _, [] => false
  | p :: ps, c :: cs => regexCharMatches p c && regexMatchesAt ps cs

/-- Model of `(url.match(new RegExp(baseUrl, 'g')) ?? []).length`: number of
non-overlapping matches scanning left to right.  The fuel argument (the string
length at the top call) makes the recursion structural; every step consumes at
least one character, so the fuel never runs out. -/
def regexCountAux (pat : List Char) : Nat → List Char → Nat
  | 0, _ => 0
  | _ + 1, [] => 0
  | fuel + 1, c :: cs =>
    if regexMatchesAt pat (c :: cs) then
      1 + regexCountAux pat fuel (cs.drop (pat.length - 1))
    else regexCountAux pat fuel cs

/-- Count of regex matches of `pat` (compiled from the base origin) in `s`. -/
def regexCountJs (pat s : String) : Nat :=
  regexCountAux pat.toList s.toList.length s.toList

/-- Model of `String.prototype.startsWith`. -/
def strStartsWith (s pre : String) : Bool := pre.toList.isPrefixOf s.toList

/-- Helper for `jsSplit`, fuelled for structural recursion (the separator is
never empty in the source, so every match consumes at least one character). -/
def jsSplitAux (sep : List Char) : Nat → List Char → List Char → List (List Char)
  | 0, cur, _ => [cur.reverse]
  | _ + 1, cur, [] => [cur.reverse]
  | fuel + 1, cur, c :: cs =>
    if sep ≠ [] && sep.isPrefixOf (c :: cs) then
      cur.reverse :: jsSplitAux sep fuel [] ((c :: cs).drop sep.length)
    else jsSplitAux sep fuel (c :: cur) cs

/-- Model of `String.prototype.split` with a literal (non-regex) separator. -/
def jsSplit (s sep : String) : List String :=
  (jsSplitAux sep.toList (s.toList.length + 1) [] s.toList).map String.mk

/-- Model of the `sanitizeUrl` closure of `scrapeProductsForCategory`
(the product-discovery path); `""` models a null/empty `href`. -/
def sanitizeUrlProducts (baseUrl url : String) : Option String :=
  if url = "" then none
  else if strStartsWith url "//www" then some ("https:" ++ url)
  else if strStartsWith url baseUrl then
    if regexCountJs baseUrl url > 1 then
      some (baseUrl ++ (jsSplit url baseUrl).getLastD "")
    else some url
  else if strStartsWith url "/" then some (baseUrl ++ url)
  else if strStartsWith url "http" then some url
  else none

/-- Model of the `sanitizeUrl` closure of `scrapeInternalLinksForProduct`
(the internal-link-discovery path): only the root-relative, `http`-acceptance
and rejection rules. -/
def sanitizeUrlInternal (baseUrl url : String) : Option String :=
  if url = "" then none
  else if strStartsWith url "/" then some (baseUrl ++ url)
  else if strStartsWith url "http" then some url
  else none

/-- Counterexample to the "same rules in both paths" part of claim C5: the
internal-link sanitizer has no duplicate-base-origin collapse; a url containing
the base origin twice starts with "http" and is returned unchanged there,
unlike in the product-discovery path. -/
theorem sanitizeUrl_paths_differ :
    sanitizeUrlInternal "https://x.com" "https://x.comhttps://x.com/foo"
      = some "https://x.comhttps://x.com/foo"
    ∧ sanitizeUrlInternal "https://x.com" "https://x.comhttps://x.com/foo"
      ≠ some "https://x.com/foo"
    ∧ sanitizeUrlProducts "https://x.com" "https://x.comhttps://x.com/foo"
      = some "https://x.com/foo" := by
  decide

/-- Claim C5 (amended): for base origin "https://x.com", root-relative urls are
resolved against the base and invalid schemes map to null in BOTH discovery
paths, but the duplicate-base-origin collapse exists only in the
product-discovery sanitizer; the internal-link sanitizer returns a
base-prefixed duplicated url unchanged (it merely starts with "http"). -/
theorem sanitizeUrl_rules :
    sanitizeUrlProducts "https://x.com" "/foo" = some "https://x.com/foo"
    ∧ sanitizeUrlProducts "https://x.com" "https://x.comhttps://x.com/foo"
      = some "https://x.com/foo"
    ∧ sanitizeUrlProducts "https://x.com" "javascript:void(0)" = none
    ∧ sanitizeUrlInternal "https://x.com" "/foo" = some "https://x.com/foo"
    ∧ sanitizeUrlInternal "https://x.com" "javascript:void(0)" = none
    ∧ sanitizeUrlInternal "https://x.com" "https://x.comhttps://x.com/foo"
      = some "https://x.comhttps://x.com/foo" := by
  decide

/-! ## Tokenization and vectorization (utils.ts)

`tokenize` lower-cases, strips characters outside `[a-z0-9\s]`, splits on
whitespace and drops empties; `vectorize` counts tokens per vocabulary term
into a dictionary and reads the vocabulary's counts back out. -/

/-- Characters kept by `.replace(/[^a-z0-9\s]/g, '')` (applied after
lower-casing). -/
def keepChar (c : Char) : Bool :=
  (decide ('a' ≤ c) && decide (c ≤ 'z')) || (decide ('0' ≤ c) && decide (c ≤ '9'))
    || jsIsSpace c

/-- Split a character list on whitespace runs dropping empty words: models
`.split(/\s+/)` followed by `.filter(Boolean)`. -/
def splitWsAux : List Char → List Char → List String
  | cur, [] => if cur.isEmpty then [] else [String.mk cur.reverse]
  | cur, c :: cs =>
    if jsIsSpace c then
      if cur.isEmpty then splitWsAux [] cs
      else String.mk cur.reverse :: splitWsAux [] cs
    else splitWsAux (c :: cur) cs

/-- Model of `tokenize` (utils.ts): lower-case (`Char.toLower` matches
`toLowerCase` on the ASCII range the kept characters live in), strip characters
outside `[a-z0-9\s]`, split on whitespace, drop empty tokens. -/
def tokenize (text : String) : List String :=
  splitWsAux [] ((text.toList.map Char.toLower).filter keepChar)

/-- Model of the reduce step of `vectorize`:
`counts[word] = (counts[word] || 0) + 1` on a dictionary object. -/
def bumpCount (counts : Pairs Nat) (w : String) : Pairs Nat :=
  jsSet counts w ((jsGet counts w).getD 0 + 1)

/-- Model of `vectorize` (utils.ts): build the token-count dictionary, then map
every vocabulary term to its count (`wordCounts[word] || 0`). -/
def vectorize (text : String) (vocabulary : List String) : List Nat :=
  let tokens := tokenize text
  let wordCounts := tokens.foldl bumpCount []
  vocabulary.map (fun w => (jsGet wordCounts w).getD 0)

theorem jsGet_foldl_bumpCount (ws : List String) :
    ∀ (acc : Pairs Nat) (w : String),
    (jsGet (ws.foldl bumpCount acc) w).getD 0 = (jsGet acc w).getD 0 + ws.count w := by
  induction ws with
  | nil => intro acc w; simp
  | cons t ts ih =>
    intro acc w
    simp only [List.foldl_cons]
    rw [ih]
    by_cases hw : w = t
    · subst hw
      unfold bumpCount
      rw [jsGet_jsSet_self]
      simp only [Option.getD_some, List.count_cons, beq_self_eq_true, if_true]
      omega
    · unfold bumpCount
      rw [jsGet_jsSet_ne _ _ hw]
      have hbeq : (t == w) = false := by
        simp only [beq_eq_false_iff_ne, ne_eq]
        exact fun hc => hw hc.symm
      simp only [List.count_cons, hbeq, Bool.false_eq_true, if_false, Nat.add_zero]

/-- Claim C9: `vectorize` returns one component per vocabulary term, the i-th
component being the raw occurrence count of the i-th vocabulary term among the
text's tokens, with no normalization; in particular
`vectorize "Router router switch" ["router", "switch"] = [2, 1]`. -/
theorem vectorize_bag_of_words (text : String) (vocabulary : List String) :
    vectorize text vocabulary = vocabulary.map (fun w => (tokenize text).count w)
    ∧ (vectorize text vocabulary).length = vocabulary.length
    ∧ vectorize "Router router switch" ["router", "switch"] = [2, 1] := by
  have hmain : vectorize text vocabulary
      = vocabulary.map (fun w => (tokenize text).count w) := by
    unfold vectorize
    refine List.map_congr_left ?_
    intro w _
    rw [jsGet_foldl_bumpCount (tokenize text) [] w]
    simp [jsGet]
  refine ⟨hmain, ?_, by decide⟩
  rw [hmain, List.length_map]

/-! ## Cosine similarity (utils.ts)

`cosineSimilarity(a, b) = dot(a,b) / (sqrt(Σ aᵢ²) · sqrt(Σ bᵢ²))`.  The source
computes with IEEE doubles; the model uses exact arithmetic over `ℚ` and
abstracts `Math.sqrt` as a function parameter constrained (in the theorems) by
its defining property — a nonnegative square root of the sum of squares —
since `ℚ` itself has no square roots. -/

/-- Model of `a.reduce((sum, ai, i) => sum + ai * b[i], 0)` for equal-length
vectors (the zip pairs the components). -/
def dotQ (a b : List ℚ) : ℚ := (a.zip b).foldl (fun s p => s + p.1 * p.2) 0

/-- Model of `a.reduce((sum, ai) => sum + ai ** 2, 0)`. -/
def sumsqQ (a : List ℚ) : ℚ := a.foldl (fun s x => s + x ^ 2) 0

/-- Model of `cosineSimilarity(a, b)` with `Math.sqrt` abstracted as `sqrtFn`. -/
def cosineSimilarity (sqrtFn : ℚ → ℚ) (a b : List ℚ) : ℚ :=
  dotQ a b / (sqrtFn (sumsqQ a) * sqrtFn (sumsqQ b))

theorem foldl_add_map {β : Type} (f : β → ℚ) (l : List β) :
    ∀ c : ℚ, l.foldl (fun s x => s + f x) c = c + (l.map f).sum := by
  induction l with
  | nil => intro c; simp
  | cons x t ih =>
    intro c
    simp only [List.foldl_cons, List.map_cons, List.sum_cons]
    rw [ih]
    ring

theorem dotQ_eq_sum (a b : List ℚ) :
    dotQ a b = ((a.zip b).map (fun p => p.1 * p.2)).sum := by
  unfold dotQ
  rw [foldl_add_map (fun p => p.1 * p.2) (a.zip b) 0, zero_add]

theorem sumsqQ_eq_sum (a : List ℚ) : sumsqQ a = (a.map (fun x => x ^ 2)).sum := by
  unfold sumsqQ
  rw [foldl_add_map (fun x => x ^ 2) a 0, zero_add]

theorem dotQ_comm (a b : List ℚ) : dotQ a b = dotQ b a := by
  rw [dotQ_eq_sum, dotQ_eq_sum]
  induction a generalizing b with
  | nil => cases b <;> simp
  | cons x t ih =>
    cases b with
    | nil => simp
    | cons y s =>
      simp only [List.zip_cons_cons, List.map_cons, List.sum_cons]
      rw [ih s, mul_comm]

theorem dotQ_self (a : List ℚ) : dotQ a a = sumsqQ a := by
  rw [dotQ_eq_sum, sumsqQ_eq_sum]
  induction a with
  | nil => simp
  | cons x t ih =>
    simp only [List.zip_cons_cons, List.map_cons, List.sum_cons, ih]
    ring_nf

theorem sumsqQ_nonneg (a : List ℚ) : 0 ≤ sumsqQ a := by
  rw [sumsqQ_eq_sum]
  refine List.sum_nonneg ?_
  intro x hx
  rcases List.mem_map.1 hx with ⟨y, _, rfl⟩
  positivity

theorem sumsqQ_pos (a : List ℚ) (ha : ∃ x ∈ a, x ≠ 0) : 0 < sumsqQ a := by
  rw [sumsqQ_eq_sum]
  rcases ha with ⟨x, hx, hxne⟩
  have hmem : x ^ 2 ∈ a.map (fun y => y ^ 2) := List.mem_map_of_mem _ hx
  have hle : x ^ 2 ≤ (a.map (fun y => y ^ 2)).sum := by
    refine List.single_le_sum ?_ _ hmem
    intro y hy
    rcases List.mem_map.1 hy with ⟨z, _, rfl⟩
    positivity
  have hxpos : 0 < x ^ 2 := by positivity
  linarith

theorem cs_pairs (l : List (ℚ × ℚ)) :
    ((l.map (fun p => p.1 * p.2)).sum) ^ 2
      ≤ (l.map (fun p => p.1 ^ 2)).sum * (l.map (fun p => p.2 ^ 2)).sum := by
  induction l with
  | nil => simp
  | cons p t ih =>
    simp only [List.map_cons, List.sum_cons]
    have hA : 0 ≤ (t.map (fun p => p.1 ^ 2)).sum := by
      refine List.sum_nonneg ?_
      intro z hz
      rcases List.mem_map.1 hz with ⟨q, _, rfl⟩
      positivity
    have hB : 0 ≤ (t.map (fun p => p.2 ^ 2)).sum := by
      refine List.sum_nonneg ?_
      intro z hz
      rcases List.mem_map.1 hz with ⟨q, _, rfl⟩
      positivity
    set x := p.1
    set y := p.2
    set D := (t.map (fun p => p.1 * p.2)).sum
    set A := (t.map (fun p => p.1 ^ 2)).sum
    set B := (t.map (fun p => p.2 ^ 2)).sum
    by_cases hB0 : B = 0
    · have hD2 : D ^ 2 = 0 := by
        have h1 : D ^ 2 ≤ 0 := by rw [hB0] at ih; linarith
        exact le_antisymm h1 (sq_nonneg D)
      have hD : D = 0 := by
        exact sq_eq_zero_iff.1 hD2
      rw [hD, hB0]
      nlinarith [mul_nonneg hA (sq_nonneg y)]
    · have hBpos : 0 < B := lt_of_le_of_ne hB (Ne.symm hB0)
      have key : B * ((x ^ 2 + A) * (y ^ 2 + B) - (x * y + D) ^ 2)
          = (x * B - y * D) ^ 2 + y ^ 2 * (A * B - D ^ 2) + B * (A * B - D ^ 2) := by
        ring
      have h1 : 0 ≤ (x * B - y * D) ^ 2 + y ^ 2 * (A * B - D ^ 2) + B * (A * B - D ^ 2) := by
        have i1 : 0 ≤ (x * B - y * D) ^ 2 := sq_nonneg _
        have i2 : 0 ≤ y ^ 2 * (A * B - D ^ 2) := mul_nonneg (sq_nonneg _) (by linarith)
        have i3 : 0 ≤ B * (A * B - D ^ 2) := mul_nonneg hB (by linarith)
        linarith
      have h2 : 0 ≤ B * ((x ^ 2 + A) * (y ^ 2 + B) - (x * y + D) ^ 2) := by
        rw [key]
        exact h1
      nlinarith [h2, hBpos]

theorem zip_map_fst_sq (a b : List ℚ) (hlen : a.length = b.length) :
    ((a.zip b).map (fun p => p.1 ^ 2)).sum = (a.map (fun x => x ^ 2)).sum := by
  have h1 : (a.zip b).map (fun p => p.1 ^ 2)
      = ((a.zip b).map Prod.fst).map (fun x => x ^ 2) := by
    rw [List.map_map]
    rfl
  rw [h1, List.map_fst_zip a b (le_of_eq hlen)]

theorem zip_map_snd_sq (a b : List ℚ) (hlen : a.length = b.length) :
    ((a.zip b).map (fun p => p.2 ^ 2)).sum = (b.map (fun x => x ^ 2)).sum := by
  have h1 : (a.zip b).map (fun p => p.2 ^ 2)
      = ((a.zip b).map Prod.snd).map (fun x => x ^ 2) := by
    rw [List.map_map]
    rfl
  rw [h1, List.map_snd_zip a b (le_of_eq hlen.symm)]

/-- Claim C7: for equal-length non-zero vectors, with `Math.sqrt` modelled by
its defining property (nonnegative root of the sum of squares), the cosine
similarity lies in `[-1, 1]`, the self-similarity equals `1` exactly, and the
similarity is symmetric. -/
theorem cosineSimilarity_bounds_self_symm (sqrtFn : ℚ → ℚ) (a b : List ℚ)
    (hlen : a.length = b.length)
    (ha : ∃ x ∈ a, x ≠ 0) (hb : ∃ x ∈ b, x ≠ 0)
    (hsa : 0 ≤ sqrtFn (sumsqQ a)) (hsa2 : sqrtFn (sumsqQ a) ^ 2 = sumsqQ a)
    (hsb : 0 ≤ sqrtFn (sumsqQ b)) (hsb2 : sqrtFn (sumsqQ b) ^ 2 = sumsqQ b) :
    (-1 ≤ cosineSimilarity sqrtFn a b ∧ cosineSimilarity sqrtFn a b ≤ 1)
    ∧ cosineSimilarity sqrtFn a a = 1
    ∧ cosineSimilarity sqrtFn a b = cosineSimilarity sqrtFn b a := by
  have hApos : 0 < sumsqQ a := sumsqQ_pos a ha
  have hBpos : 0 < sumsqQ b := sumsqQ_pos b hb
  have hsapos : 0 < sqrtFn (sumsqQ a) := by
    rcases lt_or_eq_of_le hsa with h | h
    · exact h
    · exfalso
      rw [← h] at hsa2
      simp only [ne_eq, OfNat.ofNat_ne_zero, not_false_eq_true, zero_pow] at hsa2
      linarith
  have hsbpos : 0 < sqrtFn (sumsqQ b) := by
    rcases lt_or_eq_of_le hsb with h | h
    · exact h
    · exfalso
      rw [← h] at hsb2
      simp only [ne_eq, OfNat.ofNat_ne_zero, not_false_eq_true, zero_pow] at hsb2
      linarith
  have hcs : (dotQ a b) ^ 2 ≤ sumsqQ a * sumsqQ b := by
    rw [dotQ_eq_sum, sumsqQ_eq_sum, sumsqQ_eq_sum]
    rw [← zip_map_fst_sq a b hlen, ← zip_map_snd_sq a b hlen]
    exact cs_pairs (a.zip b)
  have hden : 0 < sqrtFn (sumsqQ a) * sqrtFn (sumsqQ b) := mul_pos hsapos hsbpos
  have habs : (dotQ a b) ^ 2 ≤ (sqrtFn (sumsqQ a) * sqrtFn (sumsqQ b)) ^ 2 := by
    rw [mul_pow, hsa2, hsb2]
    exact hcs
  have hb1 : |dotQ a b| ≤ sqrtFn (sumsqQ a) * sqrtFn (sumsqQ b) := by
    nlinarith [sq_abs (dotQ a b), abs_nonneg (dotQ a b), habs, hden]
  have hboth := abs_le.1 hb1
  refine ⟨⟨?_, ?_⟩, ?_, ?_⟩
  · unfold cosineSimilarity
    exact (le_div_iff₀ hden).2 (by linarith [hboth.1])
  · unfold cosineSimilarity
    exact (div_le_one hden).2 hboth.2
  · unfold cosineSimilarity
    rw [dotQ_self a]
    rw [← pow_two (sqrtFn (sumsqQ a)), hsa2]
    exact div_self (ne_of_gt hApos)
  · unfold cosineSimilarity
    rw [dotQ_comm a b, mul_comm]

/-- Concrete square-root function used to instantiate the cosine theorems: the
only radicand occurring in the witness is `25`. -/
def wSqrt (q : ℚ) : ℚ := if q = 25 then 5 else 0

/-- Witness for C7 with the vectors `[3,4]` and `[4,3]` (norms `5`, cosine
`24/25`). -/
theorem cosineSimilarity_bounds_self_symm_witness :
    (0 ≤ wSqrt (sumsqQ [3, 4]) ∧ wSqrt (sumsqQ [3, 4]) ^ 2 = sumsqQ [3, 4]
      ∧ (∃ x ∈ [(3 : ℚ), 4], x ≠ 0))
    ∧ (-1 ≤ cosineSimilarity wSqrt [3, 4] [4, 3]
      ∧ cosineSimilarity wSqrt [3, 4] [4, 3] ≤ 1)
    ∧ cosineSimilarity wSqrt [3, 4] [3, 4] = 1
    ∧ cosineSimilarity wSqrt [3, 4] [4, 3] = cosineSimilarity wSqrt [4, 3] [3, 4] :=
  ⟨⟨by norm_num [wSqrt, sumsqQ], by norm_num [wSqrt, sumsqQ], by norm_num⟩,
   (cosineSimilarity_bounds_self_symm wSqrt [3, 4] [4, 3] rfl (by norm_num) (by norm_num)
      (by norm_num [wSqrt, sumsqQ]) (by norm_num [wSqrt, sumsqQ])
      (by norm_num [wSqrt, sumsqQ]) (by norm_num [wSqrt, sumsqQ])).1,
   (cosineSimilarity_bounds_self_symm wSqrt [3, 4] [4, 3] rfl (by norm_num) (by norm_num)
      (by norm_num [wSqrt, sumsqQ]) (by norm_num [wSqrt, sumsqQ])
      (by norm_num [wSqrt, sumsqQ]) (by norm_num [wSqrt, sumsqQ])).2.1,
   (cosineSimilarity_bounds_self_symm wSqrt [3, 4] [4, 3] rfl (by norm_num) (by norm_num)
      (by norm_num [wSqrt, sumsqQ]) (by norm_num [wSqrt, sumsqQ])
      (by norm_num [wSqrt, sumsqQ]) (by norm_num [wSqrt, sumsqQ])).2.2⟩

/-! ## JavaScript-number semantics and the retrieval ranking (`getResponse`)

Claim C8 depends on IEEE `NaN` behaviour, so the similarity pipeline is also
modelled over JavaScript numbers: finite values (exact, as rationals — overflow
and signed zero do not arise in the inputs considered), signed infinities, and
`NaN`.  `getResponse` ranks the stored entries with
`scores.sort((a, b) => b.similarity - a.similarity)`; per the ECMAScript
`SortCompare` a `NaN` comparator result is treated as `+0`, and the sort is
stable, so entries are modelled with a stable insertion sort over that
comparator. -/

/-- JavaScript number: `NaN`, signed infinity, or a finite value. -/
inductive JNum where
  | nan
  | inf (neg : Bool)
  | num (q : ℚ)
deriving DecidableEq

/-- IEEE negation. -/
def jneg : JNum → JNum
  | .nan => .nan
  | .inf s => .inf (!s)
  | .num q => .num (-q)

/-- IEEE addition (`NaN` propagates; opposite infinities give `NaN`). -/
def jadd : JNum → JNum → JNum
  | .nan, _ => .nan
  | _, .nan => .nan
  | .inf s, .inf t => if s = t then .inf s else .nan
  | .inf s, .num _ => .inf s
  | .num _, .inf t => .inf t
  | .num a, .num b => .num (a + b)

/-- IEEE subtraction, as used by the sort comparator. -/
def jsub (x y : JNum) : JNum := jadd x (jneg y)

/-- IEEE multiplication (`NaN` propagates; `±∞ · 0 = NaN`). -/
def jmul : JNum → JNum → JNum
  | .nan, _ => .nan
  | _, .nan => .nan
  | .inf s, .inf t => .inf (s != t)
  | .inf s, .num q => if q = 0 then .nan else .inf (s != decide (q < 0))
  | .num q, .inf t => if q = 0 then .nan else .inf (t != decide (q < 0))
  | .num a, .num b => .num (a * b)

/-- IEEE division (`0 / 0 = NaN`, `x / 0 = ±∞` for finite `x ≠ 0`,
`∞ / ∞ = NaN`, finite `/ ∞ = 0`; the denominator zero is treated as `+0` —
negative zero does not arise here). -/
def jdiv : JNum → JNum → JNum
  | .nan, _ => .nan
  | _, .nan => .nan
  | .inf _, .inf _ => .nan
  | .inf s, .num q => .inf (s != decide (q < 0))
  | .num _, .inf _ => .num 0
  | .num a, .num b =>
    if b = 0 then (if a = 0 then .nan else .inf (decide (a < 0))) else .num (a / b)

/-- Model of `b[i]` on a JavaScript array: out-of-range access yields
`undefined`, which arithmetic coerces to `NaN`. -/
def jnth (l : List JNum) (i : Nat) : JNum := l.getD i .nan

/-- Model of `a.reduce((sum, ai, i) => sum + ai * b[i], 0)` over JS numbers. -/
def dotJ (a b : List JNum) : JNum :=
  (List.range a.length).foldl (fun s i => jadd s (jmul (jnth a i) (jnth b i))) (.num 0)

/-- Model of `a.reduce((sum, ai) => sum + ai ** 2, 0)` over JS numbers. -/
def sumsqJ (a : List JNum) : JNum := a.foldl (fun s x => jadd s (jmul x x)) (.num 0)

/-- Model of `cosineSimilarity` over JS numbers, with `Math.sqrt` abstracted. -/
def cosineSimilarityJ (sqrtJ : JNum → JNum) (a b : List JNum) : JNum :=
  jdiv (dotJ a b) (jmul (sqrtJ (sumsqJ a)) (sqrtJ (sumsqJ b)))

/-- A stored vector entry as used by `getResponse` (content plus vector). -/
structure VecEntry where
  content : String
  vector : List JNum
deriving DecidableEq

/-- ECMAScript `SortCompare` for the comparator
`(a, b) => b.similarity - a.similarity`: a `NaN` comparator value is treated as
`+0`, otherwise the sign of the difference decides. -/
def sortCompare (x y : String × JNum) : Int :=
  match jsub y.2 x.2 with
  | .nan => 0
  | .inf s => if s then -1 else 1
  | .num q => if q < 0 then -1 else if 0 < q then 1 else 0

/-- Stable insertion: the new element passes every element it strictly
precedes and stops otherwise, so comparator-equal elements keep their original
relative order (JavaScript's `Array.prototype.sort` is stable). -/
def jsSortInsert {α : Type} (cmp : α → α → Int) (x : α) : List α → List α
  | [] => [x]
  | y :: rest => if cmp x y < 0 then x :: y :: rest else y :: jsSortInsert cmp x rest

/-- Stable sort by a JS comparator, as a left fold of stable insertions. -/
def jsSort {α : Type} (cmp : α → α → Int) (l : List α) : List α :=
  l.foldl (fun acc x => jsSortInsert cmp x acc) []

/-- Model of the ranking part of `getResponse`: compute the similarity of the
query vector against every stored entry, sort descending by similarity, take
the top 5 and return their contents (which the source then joins as context). -/
def getResponseRanking (sqrtJ : JNum → JNum) (queryVector : List JNum)
    (data : List VecEntry) : List String :=
  let scores := data.map (fun item => (item.content, cosineSimilarityJ sqrtJ queryVector item.vector))
  ((jsSort sortCompare scores).take 5).map Prod.fst

/-- Square root on the radicands occurring in the C8 evaluation (`0` and `1`;
all the vectors used are unit vectors or zero). -/
def unitSqrt : JNum → JNum
  | .num q => if q = 0 then .num 0 else if q = 1 then .num 1 else .nan
  | _ => .nan

/-- Claim C8 evaluated at the failing input: the all-zero stored vector gets
similarity `NaN` (`0 / 0`), and `getResponse`'s ranking does NOT treat it as
"no match": every comparison against it returns `NaN`, coerced to `+0` by
`SortCompare`, so the stable sort leaves the `NaN` entry in first position and
it displaces the weakest genuine match from the top-5 context. -/
theorem getResponse_nan_not_treated_as_no_match :
    cosineSimilarityJ unitSqrt [.num 1, .num 0] [.num 0, .num 0] = .nan
    ∧ getResponseRanking unitSqrt [.num 1, .num 0]
        [⟨"zero", [.num 0, .num 0]⟩,
         ⟨"a", [.num 1, .num 0]⟩,
         ⟨"b", [.num (12/13), .num (5/13)]⟩,
         ⟨"c", [.num (4/5), .num (3/5)]⟩,
         ⟨"d", [.num (3/5), .num (4/5)]⟩,
         ⟨"e", [.num (5/13), .num (12/13)]⟩]
      = ["zero", "a", "b", "c", "d"]
    ∧ getResponseRanking unitSqrt [.num 1, .num 0]
        [⟨"zero", [.num 0, .num 0]⟩,
         ⟨"a", [.num 1, .num 0]⟩,
         ⟨"b", [.num (12/13), .num (5/13)]⟩,
         ⟨"c", [.num (4/5), .num (3/5)]⟩,
         ⟨"d", [.num (3/5), .num (4/5)]⟩,
         ⟨"e", [.num (5/13), .num (12/13)]⟩]
      ≠ ["a", "b", "c", "d", "e"] := by
  have hrank : getResponseRanking unitSqrt [.num 1, .num 0]
      [⟨"zero", [.num 0, .num 0]⟩,
       ⟨"a", [.num 1, .num 0]⟩,
       ⟨"b", [.num (12/13), .num (5/13)]⟩,
       ⟨"c", [.num (4/5), .num (3/5)]⟩,
       ⟨"d", [.num (3/5), .num (4/5)]⟩,
       ⟨"e", [.num (5/13), .num (12/13)]⟩]
      = ["zero", "a", "b", "c", "d"] := by
    norm_num [getResponseRanking, cosineSimilarityJ, dotJ, sumsqJ, unitSqrt, jadd, jmul,
      jdiv, jnth, jneg, jsub, jsSort, jsSortInsert, sortCompare, List.range_succ]
  refine ⟨?_, hrank, ?_⟩
  · norm_num [cosineSimilarityJ, dotJ, sumsqJ, unitSqrt, jadd, jmul, jdiv, jnth,
      List.range_succ]
  · rw [hrank]
    decide

end Scraper
